import Mathlib

/-!
Verification of the worldline event-log core (src/lib.rs, src/main.rs).

The Rust code is shallowly embedded: `Date`, `Event` and `WorldLine` become
Lean structures; fallible operations return `Except`/`Option`, with `none`
standing for a Rust panic (index out of bounds or integer-overflow panic).
Years are carried as integers (the source stores an i32); the one arithmetic
operation the program performs on a year, the increment inside Date::next,
models the i32 overflow at i32::MAX as a panic, like every other debug-build
overflow in this file.
Rust's `\s` and `\d` character classes are modeled over ASCII; the inputs the
program cares about (its own file format) are ASCII.
-/

namespace WL

/-- Calendar date with month = 0 / day = 0 meaning "not known", as in the Rust
struct `Date`. -/
structure Date where
  year : Int
  month : Nat
  day : Nat
deriving DecidableEq

/-- `Date::MONTH_LENGTHS`. -/
def monthLengths : List Nat := [31, 28, 31, 30, 31, 30, 31, 31, 30, 31, 30, 31]

/-- Month-length lookup `MONTH_LENGTHS[month - 1]` at call sites where the
index is known to be in range (1 ≤ month ≤ 12). -/
def monthLength (m : Nat) : Nat := monthLengths.getD (m - 1) 0

/-- `MONTH_LENGTHS[self.month as usize - 1]` as evaluated inside `Date::next`:
for month = 0 the usize subtraction overflows and the program panics (modeled
as `none`); an out-of-range index would also panic. -/
def monthLength? (m : Nat) : Option Nat :=
  if m = 0 then none else monthLengths[m - 1]?

/-- `Date::new`. -/
def Date.new (year : Int) (month day : Nat) : Except String Date :=
  if month > 12 then .error ("Invalid month: " ++ toString month)
  else if month ≠ 0 ∧ day > monthLength month then .error ("Invalid day: " ++ toString day)
  else .ok ⟨year, month, day⟩

/-- `self.year + 1` on i32: `none` models the debug-build overflow panic at
year = i32::MAX (in a release build the value wraps to i32::MIN instead, and
the resulting date is smaller, not larger). -/
def i32Succ (y : Int) : Option Int :=
  if y = 2147483647 then none else some (y + 1)

/-- The two else-branches of `Date::next` (advance the month, else the year). -/
def Date.nextTail (d : Date) : Option Date :=
  if d.month ≠ 0 ∧ d.month < 12 then (Date.new d.year (d.month + 1) 0).toOption
  else (i32Succ d.year).bind fun y => (Date.new y 0 0).toOption

/-- `Date::next`; `none` models a panic, of which there are two sources:
with day ≠ 0 the month-length table is indexed at month - 1 before anything
else, so month = 0 with day ≠ 0 panics; and the year-advancing branch panics
at year = i32::MAX (the i32 increment overflows). -/
def Date.next (d : Date) : Option Date :=
  if d.day ≠ 0 then
    match monthLength? d.month with
    | none => none
    | some len =>
      if d.day < len then (Date.new d.year d.month (d.day + 1)).toOption
      else Date.nextTail d
  else Date.nextTail d

/-- The strict order on `Date` derived by Rust (`derive(PartialOrd, Ord)`):
lexicographic on (year, month, day). -/
def Date.lt (a b : Date) : Prop :=
  a.year < b.year ∨ (a.year = b.year ∧
    (a.month < b.month ∨ (a.month = b.month ∧ a.day < b.day)))

/-- The non-strict companion of `Date.lt`. -/
def Date.le (a b : Date) : Prop :=
  a.year < b.year ∨ (a.year = b.year ∧
    (a.month < b.month ∨ (a.month = b.month ∧ a.day ≤ b.day)))

instance (a b : Date) : Decidable (Date.lt a b) := by unfold Date.lt; exact inferInstance

instance (a b : Date) : Decidable (Date.le a b) := by unfold Date.le; exact inferInstance

/-- Well-formed dates, following the spec's data-model invariants: month at
most 12, a known day requires a known month, and a known day fits the fixed
month table. (`Date::new` checks the first and third but not the second.) -/
def Date.WF (d : Date) : Prop :=
  d.month ≤ 12 ∧ (d.day ≠ 0 → d.month ≠ 0) ∧ (d.month ≠ 0 → d.day ≤ monthLength d.month)

instance (d : Date) : Decidable d.WF := by unfold Date.WF; exact inferInstance

/-! Basic order facts, used throughout. -/

theorem Date.le_refl (a : Date) : Date.le a a := by unfold Date.le; omega

theorem Date.le_trans {a b c : Date} (h1 : Date.le a b) (h2 : Date.le b c) :
    Date.le a c := by
  unfold Date.le at *; omega

theorem Date.lt_of_lt_of_le {a b c : Date} (h1 : Date.lt a b) (h2 : Date.le b c) :
    Date.lt a c := by
  unfold Date.lt Date.le at *; omega

theorem Date.lt_of_le_of_lt {a b c : Date} (h1 : Date.le a b) (h2 : Date.lt b c) :
    Date.lt a c := by
  unfold Date.le Date.lt at *; omega

theorem Date.not_le_of_lt {a b : Date} (h : Date.lt a b) : ¬ Date.le b a := by
  unfold Date.lt at h; unfold Date.le; omega

theorem Date.not_lt_of_le {a b : Date} (h : Date.le a b) : ¬ Date.lt b a := by
  unfold Date.le at h; unfold Date.lt; omega

theorem Date.le_of_not_lt {a b : Date} (h : ¬ Date.lt a b) : Date.le b a := by
  unfold Date.lt at h; unfold Date.le; omega

/-! Facts about `Date.new` and `Date.next`. -/

theorem Date.new_ok (y : Int) (m dd : Nat) (h1 : m ≤ 12)
    (h2 : m ≠ 0 → dd ≤ monthLength m) : Date.new y m dd = .ok ⟨y, m, dd⟩ := by
  unfold Date.new
  rw [if_neg (by omega), if_neg (by omega)]

theorem Date.new_ok_iff (y : Int) (m dd : Nat) (d' : Date) :
    Date.new y m dd = .ok d' ↔
      m ≤ 12 ∧ (m ≠ 0 → dd ≤ monthLength m) ∧ d' = ⟨y, m, dd⟩ := by
  constructor
  · intro h
    unfold Date.new at h
    by_cases hm : m > 12
    · rw [if_pos hm] at h; cases h
    · rw [if_neg hm] at h
      by_cases hd : m ≠ 0 ∧ dd > monthLength m
      · rw [if_pos hd] at h; cases h
      · rw [if_neg hd] at h
        injection h with h
        exact ⟨by omega, by omega, h.symm⟩
  · intro ⟨h1, h2, h3⟩
    rw [h3]; exact Date.new_ok y m dd h1 h2

theorem monthLength?_eq (m : Nat) (h1 : m ≠ 0) (h2 : m ≤ 12) :
    monthLength? m = some (monthLength m) := by
  have h1' : 1 ≤ m := by omega
  interval_cases m <;> decide

theorem Date.lt_mk (a : Date) (y : Int) (m dd : Nat) :
    Date.lt a ⟨y, m, dd⟩ ↔
      (a.year < y ∨ (a.year = y ∧ (a.month < m ∨ (a.month = m ∧ a.day < dd)))) :=
  Iff.rfl

theorem i32Succ_eq (y : Int) (h : y ≠ 2147483647) : i32Succ y = some (y + 1) := by
  unfold i32Succ
  rw [if_neg h]

/-- Shared successor lemma: on a well-formed date whose year is below
i32::MAX (so the year increment cannot overflow), `next` returns a strictly
larger date; coarse dates (month = 0, or month = 12 with day = 31) step to
the next year. -/
theorem Date.next_spec (d : Date) (h : d.WF) (hy : d.year ≠ 2147483647) :
    ∃ d', d.next = some d' ∧ Date.lt d d' ∧
      (d.month = 0 → d' = ⟨d.year + 1, 0, 0⟩) ∧
      (d.month = 12 → d.day = 31 → d' = ⟨d.year + 1, 0, 0⟩) := by
  obtain ⟨h12, hdm, hdl⟩ := h
  unfold Date.next Date.nextTail
  by_cases hd : d.day = 0
  · simp only [hd, ne_eq, not_true_eq_false, if_false]
    by_cases hm : d.month ≠ 0 ∧ d.month < 12
    · refine ⟨⟨d.year, d.month + 1, 0⟩, ?_, ?_, ?_, ?_⟩
      · rw [if_pos hm, Date.new_ok _ _ _ (by omega) (by omega)]; rfl
      · rw [Date.lt_mk]; omega
      · intro h0; exact absurd h0 hm.1
      · intro h12'; omega
    · refine ⟨⟨d.year + 1, 0, 0⟩, ?_, ?_, ?_, ?_⟩
      · rw [if_neg hm, i32Succ_eq d.year hy, Option.some_bind,
          Date.new_ok _ _ _ (by omega) (by omega)]
        rfl
      · rw [Date.lt_mk]; omega
      · intro _; rfl
      · intro _ _; rfl
  · have hm0 : d.month ≠ 0 := hdm hd
    simp only [hd, ne_eq, not_false_eq_true, if_true, monthLength?_eq d.month hm0 h12]
    by_cases hlt : d.day < monthLength d.month
    · refine ⟨⟨d.year, d.month, d.day + 1⟩, ?_, ?_, ?_, ?_⟩
      · rw [if_pos hlt, Date.new_ok _ _ _ (by omega) (by omega)]; rfl
      · rw [Date.lt_mk]; omega
      · intro h0; exact absurd h0 hm0
      · intro hm12 hd31
        rw [hm12, hd31] at hlt
        have : monthLength 12 = 31 := by decide
        omega
    · rw [if_neg hlt]
      by_cases hm : d.month ≠ 0 ∧ d.month < 12
      · refine ⟨⟨d.year, d.month + 1, 0⟩, ?_, ?_, ?_, ?_⟩
        · rw [if_pos hm, Date.new_ok _ _ _ (by omega) (by omega)]; rfl
        · rw [Date.lt_mk]; omega
        · intro h0; exact absurd h0 hm.1
        · intro h12' _; omega
      · refine ⟨⟨d.year + 1, 0, 0⟩, ?_, ?_, ?_, ?_⟩
        · rw [if_neg hm, i32Succ_eq d.year hy, Option.some_bind,
          Date.new_ok _ _ _ (by omega) (by omega)]
          rfl
        · rw [Date.lt_mk]; omega
        · intro h0; exact absurd h0 hm0
        · intro _ _; rfl

/-! The `Add` command's window lower bound (src/main.rs). -/

/-- Subtraction on usize; `none` models the debug-build overflow panic (in a
release build the value wraps to a huge index and the subsequent
`print_range` slice panics instead). -/
def usizeSub (a b : Nat) : Option Nat := if b ≤ a then some (a - b) else none

/-- The lower bound `std::cmp::max(0, idx - 1)` computed by the `Add` command
in src/main.rs. -/
def addCmdLb (idx : Nat) : Option Nat := (usizeSub idx 1).map (fun x => max 0 x)

theorem monthErr_ne_dayErr (a b : String) :
    ("Invalid month: " ++ a : String) ≠ "Invalid day: " ++ b := by
  intro h
  have h2 := congrArg String.data h
  rw [String.data_append, String.data_append] at h2
  simp [String.data] at h2

/-! Claim theorems for the Date constructor and successor. -/

/-- Claim C8: `Date::new` fails with the invalid-month error exactly when
month > 12, fails with the invalid-day error exactly when month ≠ 0 and day
exceeds the month's fixed non-leap length (28 for month 2), and otherwise
succeeds; month = 0 and day = 0 are accepted as unknown-precision sentinels
for any year. -/
theorem claim_C8 (y : Int) (m dd : Nat) :
    (Date.new y m dd = .error ("Invalid month: " ++ toString m) ↔ 12 < m) ∧
    (Date.new y m dd = .error ("Invalid day: " ++ toString dd) ↔
      (m ≤ 12 ∧ m ≠ 0 ∧ monthLength m < dd)) ∧
    (Date.new y m dd = .ok ⟨y, m, dd⟩ ↔ (m ≤ 12 ∧ (m = 0 ∨ dd ≤ monthLength m))) ∧
    Date.new y 0 0 = .ok ⟨y, 0, 0⟩ ∧ monthLength 2 = 28 := by
  refine ⟨?_, ?_, ?_, Date.new_ok y 0 0 (by omega) (by omega), by decide⟩ <;>
    unfold Date.new <;> by_cases hm : 12 < m
  · rw [if_pos hm]
    exact ⟨fun _ => hm, fun _ => rfl⟩
  · rw [if_neg hm]
    constructor
    · intro h
      split at h
      · injection h with h
        exact absurd h.symm (monthErr_ne_dayErr _ _)
      · cases h
    · omega
  · rw [if_pos hm]
    constructor
    · intro h
      injection h with h
      exact absurd h (monthErr_ne_dayErr _ _)
    · omega
  · rw [if_neg hm]
    by_cases hd : m ≠ 0 ∧ monthLength m < dd
    · rw [if_pos hd]
      exact ⟨fun _ => ⟨by omega, hd.1, hd.2⟩, fun _ => rfl⟩
    · rw [if_neg hd]
      exact ⟨(fun h => by cases h), (fun _ => by omega)⟩
  · rw [if_pos hm]
    exact ⟨(fun h => by cases h), (fun h => by omega)⟩
  · rw [if_neg hm]
    by_cases hd : m ≠ 0 ∧ monthLength m < dd
    · rw [if_pos hd]
      exact ⟨(fun h => by cases h), (fun h => by omega)⟩
    · rw [if_neg hd]
      exact ⟨(fun _ => by omega), (fun _ => rfl)⟩

/-- Claim C6 (amended): for every well-formed date (per the data model:
month ≤ 12, a known day implies a known month, day within the month's
length) whose year is below i32::MAX, `next` succeeds and is strictly larger
in the lexicographic order; a year-only date steps to the next year-only
date, and (Y, 12, 31) steps to (Y+1, 0, 0). At year = i32::MAX a date that
must advance the year overflows the i32 increment — a debug panic, a wrap to
the smaller i32::MIN in release — so the claim fails there, see the
counterexample. Dates accepted by `Date::new` that violate well-formedness
(month = 0 with day ≠ 0) make `next` panic and are the subject of
claim C9. -/
theorem claim_C6 (d : Date) (h : d.WF) (hy : d.year ≠ 2147483647) :
    ∃ d', d.next = some d' ∧ Date.lt d d' ∧
      (d.month = 0 → d' = ⟨d.year + 1, 0, 0⟩) ∧
      (d.month = 12 → d.day = 31 → d' = ⟨d.year + 1, 0, 0⟩) :=
  Date.next_spec d h hy

/-- Counterexample to C6 as stated: the year-only date at year i32::MAX is
valid (well-formed and accepted by `Date::new`), yet `next` panics on the
i32 year increment instead of returning a larger date. -/
theorem claim_C6_cex :
    Date.WF ⟨2147483647, 0, 0⟩ ∧
    Date.new 2147483647 0 0 = .ok ⟨2147483647, 0, 0⟩ ∧
    Date.next ⟨2147483647, 0, 0⟩ = none :=
  ⟨by decide, rfl, rfl⟩

/-- Witness for C6 at the concrete date 2023-12-31. -/
theorem claim_C6_witness :
    ∃ d', Date.next ⟨2023, 12, 31⟩ = some d' ∧ Date.lt ⟨2023, 12, 31⟩ d' ∧
      (Date.month ⟨2023, 12, 31⟩ = 0 → d' = ⟨Date.year ⟨2023, 12, 31⟩ + 1, 0, 0⟩) ∧
      (Date.month ⟨2023, 12, 31⟩ = 12 → Date.day ⟨2023, 12, 31⟩ = 31 →
        d' = ⟨Date.year ⟨2023, 12, 31⟩ + 1, 0, 0⟩) :=
  claim_C6 ⟨2023, 12, 31⟩ (by decide) (by decide)

/-- Claim C9 (amended): `Date::new` accepts month = 0 with day ≠ 0, and on
such dates `next` panics (the table index month - 1 underflows); on every
other date accepted by `new` (month ≠ 0 or day = 0) whose year is below
i32::MAX, `next` returns a date without panicking. (At year = i32::MAX the
year-advancing branch is a second panic path: the i32 increment
overflows.) -/
theorem claim_C9 (y : Int) (m dd : Nat) (d' : Date)
    (hok : Date.new y m dd = .ok d') (hmd : d'.month ≠ 0 ∨ d'.day = 0)
    (hy : d'.year ≠ 2147483647) :
    ∃ d'', d'.next = some d'' := by
  rw [Date.new_ok_iff] at hok
  obtain ⟨h1, h2, h3⟩ := hok
  subst h3
  obtain ⟨d'', hd, _⟩ :=
    Date.next_spec ⟨y, m, dd⟩ ⟨h1, fun hdd => Or.resolve_right hmd hdd, h2⟩ hy
  exact ⟨d'', hd⟩

/-- Counterexample to C9 as stated: `Date::new` accepts the date
(2020, month 0, day 5), and `next` panics on it (the month-length table is
indexed at 0 - 1 on usize). -/
theorem claim_C9_cex :
    Date.new 2020 0 5 = .ok ⟨2020, 0, 5⟩ ∧ Date.next ⟨2020, 0, 5⟩ = none :=
  ⟨rfl, rfl⟩

/-- Witness for C9 at the concrete date 2023-02-28. -/
theorem claim_C9_witness : ∃ d'', Date.next ⟨2023, 2, 28⟩ = some d'' :=
  claim_C9 2023 2 28 ⟨2023, 2, 28⟩ rfl (by decide) (by decide)

/-- Claim C10: in the `Add` command the lower print bound max(0, idx - 1) is
computed with usize arithmetic; at idx = 0 the subtraction underflows (a
panic; modeled as `none`), so the bound is not the claimed clamp to 0. For
every positive idx it does equal idx - 1. -/
theorem claim_C10 :
    addCmdLb 0 = none ∧ addCmdLb 1 = some 0 ∧ addCmdLb 5 = some 4 := by
  refine ⟨rfl, rfl, rfl⟩

/-! Events and the sorted store. -/

/-- An event: a date and a free-text description (Rust struct `Event`,
deriving its order lexicographically on (date, description)). -/
structure Event where
  date : Date
  description : String
deriving DecidableEq

instance : Inhabited Event := ⟨⟨⟨0, 0, 0⟩, ""⟩⟩

/-- Three-way comparison on Int (Rust Ord::cmp on i32). -/
def cmpInt (a b : Int) : Ordering := if a < b then .lt else if a = b then .eq else .gt

/-- Three-way comparison on Nat (Rust Ord::cmp on u8). -/
def cmpNat (a b : Nat) : Ordering := if a < b then .lt else if a = b then .eq else .gt

/-- The derived Ord on Date: lexicographic on (year, month, day). -/
def Date.cmp (a b : Date) : Ordering :=
  (cmpInt a.year b.year).then ((cmpNat a.month b.month).then (cmpNat a.day b.day))

/-- The derived Ord on Event: lexicographic on (date, description). Rust
compares strings byte-lexicographically, which on UTF-8 agrees with the
code-point comparison performed by Lean's Ord String. -/
def Event.cmp (a b : Event) : Ordering :=
  (Date.cmp a.date b.date).then (compare a.description b.description)

/-- The loop of Rust's slice::binary_search_by (the base/size halving loop of
current std, which has no early exit on Equal), with a structural fuel; the
search calls it with fuel = size, which suffices because size strictly
decreases every iteration. -/
def bsGo (l : List Event) (f : Event → Ordering) : Nat → Nat → Nat → Nat
  | 0, base, _ => base
  | fuel + 1, base, size =>
    if size ≤ 1 then base
    else if f (l.getD (base + size / 2) default) = .gt then
      bsGo l f fuel base (size - size / 2)
    else bsGo l f fuel (base + size / 2) (size - size / 2)

/-- slice::binary_search_by: Ok(index of a hit) or Err(insertion index). -/
def binSearchBy (f : Event → Ordering) (l : List Event) : Except Nat Nat :=
  if l.length = 0 then .error 0
  else
    match f (l.getD (bsGo l f l.length 0 l.length) default) with
    | .eq => .ok (bsGo l f l.length 0 l.length)
    | .lt => .error (bsGo l f l.length 0 l.length + 1)
    | .gt => .error (bsGo l f l.length 0 l.length)

/-- `unwrap_or_else(|e| e)` applied to the search result. -/
def exceptMerge (r : Except Nat Nat) : Nat :=
  match r with
  | .ok i => i
  | .error i => i

/-- slice::partition_point, implemented as in std via binary_search_by. -/
def partitionPoint (p : Event → Bool) (l : List Event) : Nat :=
  exceptMerge (binSearchBy (fun x => if p x then .lt else .gt) l)

/-- The event store (Rust struct `WorldLine`). -/
structure WorldLine where
  events : List Event

/-- The sortedness invariant: events non-decreasing by date. -/
def sortedByDate (l : List Event) : Prop :=
  l.Pairwise (fun a b => Date.le a.date b.date)

instance (l : List Event) : Decidable (sortedByDate l) := by
  unfold sortedByDate; exact inferInstance

/-- WorldLine::add_event: the returned pair is (returned index, new store). -/
def WorldLine.addEvent (wl : WorldLine) (ev : Event) : Nat × WorldLine :=
  (exceptMerge (binSearchBy (fun x => Event.cmp x ev) wl.events),
   ⟨wl.events.insertIdx (exceptMerge (binSearchBy (fun x => Event.cmp x ev) wl.events)) ev⟩)

/-- WorldLine::first_geq. -/
def WorldLine.firstGeq (wl : WorldLine) (d : Date) : Nat :=
  partitionPoint (fun e => decide (Date.lt e.date d)) wl.events

/-- WorldLine::last_before: the source defines it with exactly the same body
as first_geq. -/
def WorldLine.lastBefore (wl : WorldLine) (d : Date) : Nat :=
  partitionPoint (fun e => decide (Date.lt e.date d)) wl.events

/-- WorldLine::print_range, modeled as the list of printed events (the empty
list corresponds to the "No events" message). The Rust slice
self.events[s..e] panics unless s ≤ e ≤ len; none models that panic. -/
def WorldLine.printRange (wl : WorldLine) (s e : Nat) : Option (List Event) :=
  if s ≤ e ∧ e ≤ wl.events.length then some ((wl.events.drop s).take (e - s)) else none

/-- WorldLine::print_date_range; none models a panic, either from
end.next() or from the slice inside print_range. -/
def WorldLine.printDateRange (wl : WorldLine) (start stop : Date) : Option (List Event) :=
  (Date.next stop).bind fun n => wl.printRange (wl.firstGeq start) (wl.lastBefore n)

/-! Comparison facts connecting the derived Ord to the lexicographic order. -/

theorem Date.le_of_lt {a b : Date} (h : Date.lt a b) : Date.le a b := by
  unfold Date.lt at h; unfold Date.le; omega

theorem Date.cmp_cases (a b : Date) :
    (Date.cmp a b = .lt ∧ Date.lt a b) ∨ (Date.cmp a b = .eq ∧ a = b) ∨
      (Date.cmp a b = .gt ∧ Date.lt b a) := by
  obtain ⟨ay, am, ad⟩ := a
  obtain ⟨cy, cm, cd⟩ := b
  unfold Date.cmp cmpInt cmpNat
  simp only [Date.lt, Date.mk.injEq]
  split_ifs <;> simp_all [Ordering.then] <;> omega

theorem Event.cmp_gt_le {a b : Event} (h : Event.cmp a b = .gt) :
    Date.le b.date a.date := by
  unfold Event.cmp at h
  rcases Date.cmp_cases a.date b.date with ⟨hc, _⟩ | ⟨hc, heq⟩ | ⟨_, hlt⟩
  · rw [hc] at h; simp [Ordering.then] at h
  · rw [heq]; exact Date.le_refl _
  · exact Date.le_of_lt hlt

theorem Event.cmp_ne_gt_le {a b : Event} (h : Event.cmp a b ≠ .gt) :
    Date.le a.date b.date := by
  unfold Event.cmp at h
  rcases Date.cmp_cases a.date b.date with ⟨_, hlt⟩ | ⟨hc, heq⟩ | ⟨hc, _⟩
  · exact Date.le_of_lt hlt
  · rw [heq]; exact Date.le_refl _
  · rw [hc] at h; simp [Ordering.then] at h

theorem Event.cmp_eq_dates {a b : Event} (h : Event.cmp a b = .eq) :
    a.date = b.date := by
  unfold Event.cmp at h
  rcases Date.cmp_cases a.date b.date with ⟨hc, _⟩ | ⟨_, heq⟩ | ⟨hc, _⟩
  · rw [hc] at h; simp [Ordering.then] at h
  · exact heq
  · rw [hc] at h; simp [Ordering.then] at h

/-! The binary-search invariant. `P` abstracts what holds of every index left
of the returned position, `Q` what holds from the returned position on. -/

theorem sorted_getD_le {l : List Event} (hs : sortedByDate l) {i j : Nat}
    (hij : i ≤ j) (hj : j < l.length) :
    Date.le ((l.getD i default).date) ((l.getD j default).date) := by
  rcases Nat.eq_or_lt_of_le hij with h | h
  · subst h; exact Date.le_refl _
  · rw [List.getD_eq_getElem l default (by omega), List.getD_eq_getElem l default hj]
    exact (List.pairwise_iff_getElem.mp hs) i j (by omega) hj h

theorem bsGo_inv (l : List Event) (f : Event → Ordering) (P Q : Nat → Prop)
    (HP : ∀ i j, i ≤ j → j < l.length → f (l.getD j default) ≠ .gt → P i)
    (HQ : ∀ i j, j ≤ i → i < l.length → f (l.getD j default) = .gt → Q i) :
    ∀ fuel size base, size ≤ fuel → 1 ≤ size → base + size ≤ l.length →
      (∀ i, i < base → P i) →
      (∀ i, base + size ≤ i → i < l.length → Q i) →
      (∀ i, i < bsGo l f fuel base size → P i) ∧
      (∀ i, bsGo l f fuel base size + 1 ≤ i → i < l.length → Q i) ∧
      bsGo l f fuel base size < l.length := by
  intro fuel
  induction fuel with
  | zero => intro size base hsf hs; omega
  | succ fuel ih =>
    intro size base hsf hs hb hA hB
    by_cases hsz : size ≤ 1
    · simp only [bsGo, if_pos hsz]
      exact ⟨hA, fun i hi hl => hB i (by omega) hl, by omega⟩
    · by_cases hgt : f (l.getD (base + size / 2) default) = .gt
      · simp only [bsGo, if_neg hsz, if_pos hgt]
        refine ih (size - size / 2) base (by omega) (by omega) (by omega) hA ?_
        intro i hi hl
        by_cases hio : base + size ≤ i
        · exact hB i hio hl
        · exact HQ i (base + size / 2) (by omega) hl hgt
      · simp only [bsGo, if_neg hsz, if_neg hgt]
        refine ih (size - size / 2) (base + size / 2) (by omega) (by omega) (by omega) ?_ ?_
        · intro i hi
          by_cases hio : i < base
          · exact hA i hio
          · exact HP i (base + size / 2) (by omega) (by omega) hgt
        · intro i hi hl
          exact hB i (by omega) hl

theorem binSearchBy_spec (l : List Event) (f : Event → Ordering) (P Q : Nat → Prop)
    (HP : ∀ i j, i ≤ j → j < l.length → f (l.getD j default) ≠ .gt → P i)
    (HQ : ∀ i j, j ≤ i → i < l.length → f (l.getD j default) = .gt → Q i)
    (Heq : ∀ j, j < l.length → f (l.getD j default) = .eq → Q j) :
    (∀ i, i < exceptMerge (binSearchBy f l) → P i) ∧
    (∀ i, exceptMerge (binSearchBy f l) ≤ i → i < l.length → Q i) ∧
    exceptMerge (binSearchBy f l) ≤ l.length := by
  by_cases hl : l.length = 0
  · unfold binSearchBy
    rw [if_pos hl]
    refine ⟨?_, ?_, ?_⟩ <;> simp only [exceptMerge]
    · omega
    · omega
    · omega
  · obtain ⟨hA, hB, hlen⟩ := bsGo_inv l f P Q HP HQ l.length l.length 0 le_rfl
      (by omega) (by omega) (fun i hi => absurd hi (by omega)) (fun i h1 h2 => by omega)
    unfold binSearchBy
    rw [if_neg hl]
    rcases hcm : f (l.getD (bsGo l f l.length 0 l.length) default) with _ | _ | _ <;>
      simp only [exceptMerge]
    · refine ⟨?_, ?_, by omega⟩
      · intro i hi
        by_cases hib : i < bsGo l f l.length 0 l.length
        · exact hA i hib
        · have hieq : i = bsGo l f l.length 0 l.length := by omega
          subst hieq
          exact HP _ _ le_rfl hlen (by rw [hcm]; decide)
      · intro i h1 h2
        exact hB i (by omega) h2
    · refine ⟨hA, ?_, by omega⟩
      intro i h1 h2
      by_cases hib : i = bsGo l f l.length 0 l.length
      · subst hib; exact Heq _ h2 hcm
      · exact hB i (by omega) h2
    · refine ⟨hA, ?_, by omega⟩
      intro i h1 h2
      by_cases hib : i = bsGo l f l.length 0 l.length
      · subst hib; exact HQ _ _ le_rfl h2 hcm
      · exact hB i (by omega) h2

/-- partition_point on a date-sorted list, applied to the predicate
`e.date < d`, returns the boundary index: strictly smaller dates before it,
dates ≥ d from it on. -/
theorem partitionPoint_spec (l : List Event) (d : Date) (hs : sortedByDate l) :
    (∀ i, i < partitionPoint (fun e => decide (Date.lt e.date d)) l →
      Date.lt ((l.getD i default).date) d) ∧
    (∀ i, partitionPoint (fun e => decide (Date.lt e.date d)) l ≤ i → i < l.length →
      Date.le d ((l.getD i default).date)) ∧
    partitionPoint (fun e => decide (Date.lt e.date d)) l ≤ l.length := by
  unfold partitionPoint
  refine binSearchBy_spec l _ _ _ ?_ ?_ ?_
  · intro i j hij hj hne
    have hne' : (if decide (Date.lt ((l.getD j default).date) d) then Ordering.lt
        else Ordering.gt) ≠ Ordering.gt := hne
    have hj' : Date.lt ((l.getD j default).date) d := by
      by_contra hc
      rw [decide_eq_false hc] at hne'
      exact hne' rfl
    exact Date.lt_of_le_of_lt (sorted_getD_le hs hij hj) hj'
  · intro i j hji hi hgt
    have hgt' : (if decide (Date.lt ((l.getD j default).date) d) then Ordering.lt
        else Ordering.gt) = Ordering.gt := hgt
    have hj' : ¬ Date.lt ((l.getD j default).date) d := by
      intro hc
      rw [decide_eq_true hc] at hgt'
      exact absurd hgt' (by decide)
    exact Date.le_trans (Date.le_of_not_lt hj') (sorted_getD_le hs hji hi)
  · intro j hj heq
    have heq' : (if decide (Date.lt ((l.getD j default).date) d) then Ordering.lt
        else Ordering.gt) = Ordering.eq := heq
    by_cases hc : Date.lt ((l.getD j default).date) d
    · rw [decide_eq_true hc] at heq'
      exact absurd heq' (by decide)
    · rw [decide_eq_false hc] at heq'
      exact absurd heq' (by decide)

/-- Claim C7: last_before and first_geq are the same function (the source
gives them identical bodies), and on a sorted store they return the partition
point: the index of the first event with date ≥ d, equivalently one past the
last event with date strictly before d. -/
theorem claim_C7 (wl : WorldLine) (d : Date) (hs : sortedByDate wl.events) :
    wl.lastBefore d = wl.firstGeq d ∧
    (∀ i, i < wl.firstGeq d → Date.lt ((wl.events.getD i default).date) d) ∧
    (∀ i, wl.firstGeq d ≤ i → i < wl.events.length →
      Date.le d ((wl.events.getD i default).date)) ∧
    wl.firstGeq d ≤ wl.events.length := by
  obtain ⟨h1, h2, h3⟩ := partitionPoint_spec wl.events d hs
  exact ⟨rfl, h1, h2, h3⟩

/-- A concrete two-event store used by the C7 witness. -/
def wlC7 : WorldLine := ⟨[⟨⟨-44, 3, 15⟩, "a"⟩, ⟨⟨2023, 5, 0⟩, "b"⟩]⟩

/-- Witness for C7 on a two-event store and the query date 0-00-00. -/
theorem claim_C7_witness :
    wlC7.lastBefore ⟨0, 0, 0⟩ = wlC7.firstGeq ⟨0, 0, 0⟩ ∧
    (∀ i, i < wlC7.firstGeq ⟨0, 0, 0⟩ →
      Date.lt ((wlC7.events.getD i default).date) ⟨0, 0, 0⟩) ∧
    (∀ i, wlC7.firstGeq ⟨0, 0, 0⟩ ≤ i → i < wlC7.events.length →
      Date.le ⟨0, 0, 0⟩ ((wlC7.events.getD i default).date)) ∧
    wlC7.firstGeq ⟨0, 0, 0⟩ ≤ wlC7.events.length :=
  claim_C7 wlC7 ⟨0, 0, 0⟩ (by decide)

/-! Sorted insertion. -/

theorem insertIdx_getD (l : List Event) (ev : Event) (idx : Nat) (h : idx ≤ l.length) :
    (l.insertIdx idx ev).getD idx default = ev := by
  induction l generalizing idx with
  | nil =>
    have h0 : idx = 0 := by simpa using h
    subst h0; rfl
  | cons a t ih =>
    cases idx with
    | zero => rfl
    | succ n =>
      rw [List.insertIdx_succ_cons, List.getD_cons_succ]
      exact ih n (by simpa using h)

theorem sorted_insertIdx (l : List Event) (ev : Event) (idx : Nat)
    (hs : sortedByDate l) (hle : idx ≤ l.length)
    (hA : ∀ i, i < idx → Date.le ((l.getD i default).date) ev.date)
    (hB : ∀ i, idx ≤ i → i < l.length → Date.le ev.date ((l.getD i default).date)) :
    sortedByDate (l.insertIdx idx ev) := by
  induction l generalizing idx with
  | nil =>
    have h0 : idx = 0 := by simpa using hle
    subst h0
    exact List.pairwise_singleton _ _
  | cons a t ih =>
    unfold sortedByDate at hs ⊢
    obtain ⟨ha, ht⟩ := List.pairwise_cons.mp hs
    cases idx with
    | zero =>
      rw [List.insertIdx_zero]
      refine List.pairwise_cons.mpr ⟨?_, hs⟩
      intro x hx
      obtain ⟨i, hi, rfl⟩ := List.mem_iff_getElem.mp hx
      have hq := hB i (by omega) hi
      rwa [List.getD_eq_getElem _ _ hi] at hq
    | succ n =>
      rw [List.insertIdx_succ_cons]
      have hle' : n ≤ t.length := by simpa using hle
      refine List.pairwise_cons.mpr ⟨?_, ?_⟩
      · intro x hx
        rcases (List.mem_insertIdx hle').mp hx with rfl | hxt
        · exact hA 0 (by omega)
        · exact ha x hxt
      · refine ih n ht hle' ?_ ?_
        · intro i hi
          have := hA (i + 1) (by omega)
          rwa [List.getD_cons_succ] at this
        · intro i hi hil
          have := hB (i + 1) (by omega) (by simpa using hil)
          rwa [List.getD_cons_succ] at this

/-- Claim C2: on a store sorted by date (the empty store included),
add_event inserts at the index it returns, the result is again sorted by
date, and the returned index is a valid position (at most the old length)
holding the new event. -/
theorem claim_C2 (wl : WorldLine) (ev : Event) (hs : sortedByDate wl.events) :
    sortedByDate ((wl.addEvent ev).2.events) ∧
    (wl.addEvent ev).2.events = wl.events.insertIdx (wl.addEvent ev).1 ev ∧
    (wl.addEvent ev).1 ≤ wl.events.length ∧
    ((wl.addEvent ev).2.events).getD (wl.addEvent ev).1 default = ev := by
  obtain ⟨hA, hB, hlen⟩ := binSearchBy_spec wl.events (fun x => Event.cmp x ev)
      (fun i => Date.le ((wl.events.getD i default).date) ev.date)
      (fun i => Date.le ev.date ((wl.events.getD i default).date))
      (fun i j hij hj hne =>
        Date.le_trans (sorted_getD_le hs hij hj) (Event.cmp_ne_gt_le hne))
      (fun i j hji hi hgt =>
        Date.le_trans (Event.cmp_gt_le hgt) (sorted_getD_le hs hji hi))
      (fun j hj heq => by
        have heq' : Event.cmp (wl.events.getD j default) ev = .eq := heq
        show Date.le ev.date ((wl.events.getD j default).date)
        rw [Event.cmp_eq_dates heq']
        exact Date.le_refl _)
  exact ⟨sorted_insertIdx wl.events ev _ hs hlen hA hB, rfl, hlen,
    insertIdx_getD wl.events ev _ hlen⟩

/-- A concrete two-event store used by the C2 witness. -/
def wlC2 : WorldLine := ⟨[⟨⟨1, 0, 0⟩, "a"⟩, ⟨⟨200, 0, 0⟩, "b"⟩]⟩

/-- A concrete event used by the C2 witness. -/
def evC2 : Event := ⟨⟨100, 0, 0⟩, "c"⟩

/-- Witness for C2: inserting an event dated 100-00-00 between two events. -/
theorem claim_C2_witness :
    sortedByDate ((wlC2.addEvent evC2).2.events) ∧
    (wlC2.addEvent evC2).2.events =
      wlC2.events.insertIdx (wlC2.addEvent evC2).1 evC2 ∧
    (wlC2.addEvent evC2).1 ≤ wlC2.events.length ∧
    ((wlC2.addEvent evC2).2.events).getD (wlC2.addEvent evC2).1 default = evC2 :=
  claim_C2 wlC2 evC2 (by decide)

/-! Date-range printing. -/

theorem Date.lt_trans {a b c : Date} (h1 : Date.lt a b) (h2 : Date.lt b c) :
    Date.lt a c := by
  unfold Date.lt at *; omega

theorem Date.lt_irrefl (a : Date) : ¬ Date.lt a a := by
  unfold Date.lt; omega

/-- A list whose filter keep-region is exactly the index window [s, e) filters
to the corresponding slice. -/
theorem filter_eq_slice (pb : Event → Bool) :
    ∀ (m : List Event) (s e : Nat), s ≤ e → e ≤ m.length →
      (∀ i (h : i < m.length), ((s ≤ i ∧ i < e) ↔ pb m[i] = true)) →
      m.filter pb = (m.drop s).take (e - s) := by
  intro m
  induction m with
  | nil =>
    intro s e _ hel _
    simp
  | cons a t ih =>
    intro s e hse hel hiff
    cases s with
    | zero =>
      cases e with
      | zero =>
        have ha : pb a = false := by
          have h0 := (hiff 0 (by simp)).mpr
          rcases hb : pb a with _ | _
          · rfl
          · exact absurd (h0 hb) (by omega)
        rw [List.filter_cons, if_neg (by rw [ha]; decide)]
        have ht : t.filter pb = (t.drop 0).take 0 := by
          refine ih 0 0 le_rfl (by omega) ?_
          intro i hi
          constructor
          · intro hc; omega
          · intro hpb
            have := (hiff (i + 1) (by simpa using hi)).mpr
            rw [List.getElem_cons_succ] at this
            exact absurd (this hpb) (by omega)
        simpa using ht
      | succ k =>
        have ha : pb a = true := (hiff 0 (by simp)).mp (by omega)
        rw [List.filter_cons, if_pos (by rw [ha])]
        have ht : t.filter pb = (t.drop 0).take k := by
          refine ih 0 k (by omega) (by simpa using hel) ?_
          intro i hi
          constructor
          · intro hc
            have := (hiff (i + 1) (by simpa using hi)).mp (by omega)
            rwa [List.getElem_cons_succ] at this
          · intro hpb
            have := (hiff (i + 1) (by simpa using hi)).mpr
            rw [List.getElem_cons_succ] at this
            have := this hpb
            omega
        rw [ht]
        simp [List.drop_zero]
    | succ j =>
      cases e with
      | zero => omega
      | succ k =>
        have ha : pb a = false := by
          rcases hb : pb a with _ | _
          · rfl
          · have := (hiff 0 (by simp)).mpr hb
            omega
        rw [List.filter_cons, if_neg (by rw [ha]; decide)]
        have ht : t.filter pb = (t.drop j).take (k - j) := by
          refine ih j k (by omega) (by simpa using hel) ?_
          intro i hi
          constructor
          · intro hc
            have := (hiff (i + 1) (by simpa using hi)).mp (by omega)
            rwa [List.getElem_cons_succ] at this
          · intro hpb
            have := (hiff (i + 1) (by simpa using hi)).mpr
            rw [List.getElem_cons_succ] at this
            have := this hpb
            omega
        rw [ht, List.drop_succ_cons]
        congr 1
        omega

/-- Claim C3 (amended): on a sorted store, for well-formed dates start ≤ end,
print_date_range prints exactly the events whose date lies in the half-open
interval [start, end.next()) — events in file order, nothing when the
interval is empty. (As originally stated the claim fails: the interval is not
[start, end], see the counterexample; for start > end the slice can panic;
and end's year must lie below i32::MAX or end.next() itself panics on the
i32 increment.) -/
theorem claim_C3 (wl : WorldLine) (a b : Date) (hs : sortedByDate wl.events)
    (hwf : b.WF) (hby : b.year ≠ 2147483647) (hab : Date.le a b) :
    ∃ b', Date.next b = some b' ∧
      wl.printDateRange a b =
        some (wl.events.filter
          (fun e => decide (Date.le a e.date) && decide (Date.lt e.date b'))) := by
  obtain ⟨b', hnext, hbb', _, _⟩ := Date.next_spec b hwf hby
  refine ⟨b', hnext, ?_⟩
  unfold WorldLine.printDateRange
  rw [hnext, Option.some_bind]
  obtain ⟨hA1, hB1, hlen1⟩ := partitionPoint_spec wl.events a hs
  obtain ⟨hA2, hB2, hlen2⟩ := partitionPoint_spec wl.events b' hs
  have hfg : wl.firstGeq a = partitionPoint (fun e => decide (Date.lt e.date a)) wl.events := rfl
  have hlb : wl.lastBefore b' = partitionPoint (fun e => decide (Date.lt e.date b')) wl.events := rfl
  have hse : wl.firstGeq a ≤ wl.lastBefore b' := by
    rw [hfg, hlb]
    by_contra hc
    push_neg at hc
    have hjlen : partitionPoint (fun e => decide (Date.lt e.date b')) wl.events <
        wl.events.length := lt_of_lt_of_le hc hlen1
    have h1 := hA1 _ hc
    have h2 := hB2 _ le_rfl hjlen
    exact absurd (Date.lt_of_lt_of_le (Date.lt_of_le_of_lt h2 h1)
      (Date.le_trans hab (Date.le_of_lt hbb'))) (Date.lt_irrefl b')
  unfold WorldLine.printRange
  rw [if_pos ⟨hse, by rw [hlb]; exact hlen2⟩]
  congr 1
  rw [hfg, hlb]
  refine (filter_eq_slice _ wl.events _ _ (by rw [hfg, hlb] at hse; exact hse)
    hlen2 ?_).symm
  intro i hi
  rw [← List.getD_eq_getElem wl.events default hi]
  simp only [Bool.and_eq_true, decide_eq_true_eq]
  constructor
  · intro ⟨hsi, hie⟩
    exact ⟨hB1 i hsi hi, hA2 i hie⟩
  · intro ⟨hle, hlt⟩
    constructor
    · by_contra hc
      push_neg at hc
      exact absurd (Date.lt_of_le_of_lt hle (hA1 i hc)) (Date.lt_irrefl a)
    · by_contra hc
      push_neg at hc
      exact absurd (Date.lt_of_le_of_lt (hB2 i hc hi) hlt) (Date.lt_irrefl _)

/-- The one-event store used by the C3 counterexample and witness. -/
def wlC3 : WorldLine := ⟨[⟨⟨2023, 5, 15⟩, "x"⟩]⟩

/-- Counterexample to C3 as stated: with the single event dated 2023-05-15
and the equal-precision range 2023-01 to 2023-05 (start < end, both
month-precision), print_date_range prints that event although its date is
not ≤ the end date in the store's order — the printed window is
[start, end.next()), not [start, end]. -/
theorem claim_C3_cex :
    wlC3.printDateRange ⟨2023, 1, 0⟩ ⟨2023, 5, 0⟩ = some [⟨⟨2023, 5, 15⟩, "x"⟩] ∧
    ¬ Date.le ⟨2023, 5, 15⟩ ⟨2023, 5, 0⟩ ∧
    Date.lt (⟨2023, 1, 0⟩ : Date) ⟨2023, 5, 0⟩ := by
  refine ⟨by decide, by decide, by decide⟩

/-- Witness for C3 on the one-event store with range 2023-01 to 2023-12-25. -/
theorem claim_C3_witness :
    ∃ b', Date.next ⟨2023, 12, 25⟩ = some b' ∧
      wlC3.printDateRange ⟨2023, 1, 0⟩ ⟨2023, 12, 25⟩ =
        some (wlC3.events.filter
          (fun e => decide (Date.le ⟨2023, 1, 0⟩ e.date) && decide (Date.lt e.date b'))) :=
  claim_C3 wlC3 ⟨2023, 1, 0⟩ ⟨2023, 12, 25⟩ (by decide) (by decide) (by decide)
    (by decide)

/-! The date parser. The regex
  ^\s*(?<era>(?i:BCE|BC|CE|AD))?\s*(?<year>-?\d{1,4})(?:-(?<month>\d{1,2}))?(?:-(?<day>\d{1,2}))?(?:\s+|$)
is hand-compiled to an explicit matcher. Each construct contributes the list
of its local alternatives in the engine's preference order (alternation left
to right, greedy quantifiers longest first, the optional groups try to match
before skipping); the lists are chained with bind, so the head of the final
list is exactly the match a leftmost-first engine produces, with later
entries the backtracking alternatives. -/

/-- Rust regex \s over ASCII: space, tab, newline, carriage return, vertical
tab, form feed. -/
def isWs (c : Char) : Bool :=
  c.toNat = 32 || c.toNat = 9 || c.toNat = 10 || c.toNat = 13 ||
    c.toNat = 11 || c.toNat = 12

/-- Rust regex \d over ASCII: the characters 0-9. -/
def isDig (c : Char) : Bool := 48 ≤ c.toNat && c.toNat ≤ 57

/-- Length of the maximal whitespace run at the front. -/
def wsRun (s : List Char) : Nat := (s.takeWhile isWs).length

/-- Length of the maximal digit run at the front. -/
def digitRun (s : List Char) : Nat := (s.takeWhile isDig).length

/-- Alternatives of \s*: greedy, so the longest consumption comes first;
each entry is the rest of the input. -/
def wsStarAlts (s : List Char) : List (List Char) :=
  (List.range (wsRun s + 1)).map fun i => s.drop (wsRun s - i)

/-- Alternatives of (?:\s+|$): one or more whitespace characters (greedy),
or end of input; each entry is the rest after the consumed tail. -/
def tailAlts (s : List Char) : List (List Char) :=
  ((List.range (wsRun s)).map fun i => s.drop (wsRun s - i)) ++
    (if s = [] then [[]] else [])

/-- One case-insensitive literal era alternative: the captured source text
and the rest, or no match. -/
def eraTry (tok : List Char) (s : List Char) : List (Option (List Char) × List Char) :=
  if (s.take tok.length).map Char.toLower = tok then
    [(some (s.take tok.length), s.drop tok.length)]
  else []

/-- Alternatives of (?<era>(?i:BCE|BC|CE|AD))?, in the pattern's order,
ending with the skip alternative. -/
def eraAlts (s : List Char) : List (Option (List Char) × List Char) :=
  eraTry ['b', 'c', 'e'] s ++ eraTry ['b', 'c'] s ++ eraTry ['c', 'e'] s ++
    eraTry ['a', 'd'] s ++ [(none, s)]

/-- Alternatives of -? (greedy: consume the sign first when present). -/
def signAlts : List Char → List (List Char × List Char)
  | '-' :: t => [(['-'], t), ([], '-' :: t)]
  | s => [([], s)]

/-- Alternatives of \d{1,4} for the year: longest first, at least one digit. -/
def yearDigitAlts (s : List Char) : List (List Char × List Char) :=
  (List.range (min (digitRun s) 4)).map fun i =>
    (s.take (min (digitRun s) 4 - i), s.drop (min (digitRun s) 4 - i))

/-- Alternatives of (?:-(\d{1,2}))? for month and day: a dash followed by one
or two digits (two preferred), then the skip alternative. -/
def dashNumAlts : List Char → List (Option (List Char) × List Char)
  | '-' :: t =>
    ((List.range (min (digitRun t) 2)).map fun i =>
      (some (t.take (min (digitRun t) 2 - i)), t.drop (min (digitRun t) 2 - i))) ++
      [(none, '-' :: t)]
  | s => [(none, s)]

/-- Raw captures of one match: era text, year text (sign included), month and
day digit texts, and the end offset of the whole match. -/
structure RawCaps where
  era : Option (List Char)
  year : List Char
  month : Option (List Char)
  day : Option (List Char)
  stop : Nat
deriving DecidableEq

/-- The pipeline after the year: optional month, optional day, then the
required trailing whitespace-or-end. `total` is the input length, used to
turn the leftover suffix into the match-end offset. -/
def afterYear (total : Nat) (era : Option (List Char)) (yr : List Char)
    (s : List Char) : List RawCaps :=
  (dashNumAlts s).flatMap fun mo =>
    (dashNumAlts mo.2).flatMap fun dy =>
      (tailAlts dy.2).map fun s8 =>
        ⟨era, yr, mo.1, dy.1, total - s8.length⟩

/-- The pipeline after the era: inter-token whitespace, sign, year digits. -/
def afterEra (total : Nat) (era : Option (List Char)) (s : List Char) :
    List RawCaps :=
  (wsStarAlts s).flatMap fun s3 =>
    (signAlts s3).flatMap fun sg =>
      (yearDigitAlts sg.2).flatMap fun yd =>
        afterYear total era (sg.1 ++ yd.1) yd.2

/-- Every match of the anchored date regex, in preference order. -/
def dateMatches (s : List Char) : List RawCaps :=
  (wsStarAlts s).flatMap fun s1 =>
    (eraAlts s1).flatMap fun er =>
      afterEra s.length er.1 er.2

/-- A captured digit string parsed as a number (the always-successful
str::parse on the digits-only month/day captures). -/
def parseNatDigits (cs : List Char) : Nat :=
  cs.foldl (fun a c => a * 10 + (c.toNat - 48)) 0

/-- The year capture (optional sign, 1-4 digits) parsed as an integer. -/
def parseYearChars (cs : List Char) : Int :=
  if cs.head? = some '-' then -(parseNatDigits (cs.drop 1) : Int)
  else (parseNatDigits cs : Int)

/-- caps["era"].starts_with(['B', 'b']). -/
def eraIsB (e : Option (List Char)) : Bool :=
  match e with
  | some (c :: _) => c = 'B' || c = 'b'
  | _ => false

/-- Date::parse: on a regex match, negate the signed year if the era starts
with B/b, default missing month/day to 0, validate through Date::new, and
return the date with the end offset of the match. (Rust's offset counts
bytes; everything the regex consumes is ASCII here, so bytes = characters.) -/
def Date.parse (s : String) : Except String (Date × Nat) :=
  match (dateMatches s.toList).head? with
  | none => .error ("Invalid date format: " ++ s)
  | some c =>
    (Date.new (if eraIsB c.era then -(parseYearChars c.year) else parseYearChars c.year)
        ((c.month.map parseNatDigits).getD 0)
        ((c.day.map parseNatDigits).getD 0)).map fun dd => (dd, c.stop)

/-- Decimal digit to character. -/
def digitChar (d : Nat) : Char :=
  match d with
  | 0 => '0' | 1 => '1' | 2 => '2' | 3 => '3' | 4 => '4'
  | 5 => '5' | 6 => '6' | 7 => '7' | 8 => '8' | _ => '9'

/-- Decimal digits of n, most significant first, with a structural fuel
(fuel > n always suffices because n/10 strictly decreases). Embeds the
decimal rendering done by to_string. -/
def natCharsAux : Nat → Nat → List Char → List Char
  | 0, _, acc => acc
  | fuel + 1, n, acc =>
    if n < 10 then digitChar n :: acc
    else natCharsAux fuel (n / 10) (digitChar (n % 10) :: acc)

/-- Decimal representation of n ("0" for 0, no leading zeros otherwise). -/
def natChars (n : Nat) : List Char := natCharsAux (n + 1) n []

/-- Left zero-padding to width w (the format specs {:0>4} and {:02}). -/
def zeroPad (w : Nat) (cs : List Char) : List Char :=
  List.replicate (w - cs.length) '0' ++ cs

/-- The era prefix of Date::format: "BCE " for negative years, " CE "
otherwise, empty when the era is not displayed. -/
def fmtPre (d : Date) (displayEra : Bool) : List Char :=
  if displayEra then
    (if d.year < 0 then ['B', 'C', 'E', ' '] else [' ', 'C', 'E', ' '])
  else []

/-- Date::format. -/
def Date.format (d : Date) (displayEra : Bool) : String :=
  if d.month = 0 then
    ⟨fmtPre d displayEra ++ zeroPad 4 (natChars d.year.natAbs) ++
      [' ', ' ', ' ', ' ', ' ', ' ']⟩
  else if d.day = 0 then
    ⟨fmtPre d displayEra ++ zeroPad 4 (natChars d.year.natAbs) ++
      '-' :: zeroPad 2 (natChars d.month) ++ [' ', ' ', ' ']⟩
  else
    ⟨fmtPre d displayEra ++ zeroPad 4 (natChars d.year.natAbs) ++
      '-' :: zeroPad 2 (natChars d.month) ++ '-' :: zeroPad 2 (natChars d.day)⟩

/-- Event::parse: the leading date, then the rest of the line verbatim. -/
def Event.parse (s : String) : Except String Event :=
  (Date.parse s).map fun p => ⟨p.1, ⟨s.toList.drop p.2⟩⟩

/-! Facts about digits and decimal rendering. -/

theorem digitChar_isDig (d : Nat) : isDig (digitChar d) = true := by
  rcases d with _ | _ | _ | _ | _ | _ | _ | _ | _ | d <;> rfl

theorem digitChar_toNat (d : Nat) (h : d < 10) : (digitChar d).toNat = 48 + d := by
  interval_cases d <;> rfl

theorem isDig_not_ws (c : Char) (h : isDig c = true) : isWs c = false := by
  unfold isDig at h
  unfold isWs
  simp only [Bool.and_eq_true, decide_eq_true_eq] at h
  simp only [Bool.or_eq_false_iff, decide_eq_false_iff_not]
  omega

theorem isDig_ne_dash (c : Char) (h : isDig c = true) : c ≠ '-' := by
  intro h0
  subst h0
  exact absurd h (by decide)

theorem natCharsAux_fuel (f : Nat) : ∀ (g n : Nat) (acc : List Char),
    n < f → n < g → natCharsAux f n acc = natCharsAux g n acc := by
  induction f with
  | zero => intro g n acc hf; omega
  | succ f ih =>
    intro g n acc hf hg
    cases g with
    | zero => omega
    | succ g =>
      show (if n < 10 then _ else _) = (if n < 10 then _ else _)
      by_cases h10 : n < 10
      · rw [if_pos h10, if_pos h10]
      · rw [if_neg h10, if_neg h10]
        exact ih g (n / 10) _ (by omega) (by omega)

theorem natCharsAux_acc (f : Nat) : ∀ (n : Nat) (acc : List Char),
    n < f → natCharsAux f n acc = natCharsAux f n [] ++ acc := by
  induction f with
  | zero => intro n acc hf; omega
  | succ f ih =>
    intro n acc hf
    show (if n < 10 then _ else _) = (if n < 10 then _ else _) ++ acc
    by_cases h10 : n < 10
    · rw [if_pos h10, if_pos h10]; rfl
    · rw [if_neg h10, if_neg h10]
      have hr : n / 10 < f := by omega
      rw [ih (n / 10) _ hr, ih (n / 10) [digitChar (n % 10)] hr, List.append_assoc]
      rfl

theorem natChars_lt10 (n : Nat) (h : n < 10) : natChars n = [digitChar n] := by
  unfold natChars
  show (if n < 10 then _ else _) = _
  rw [if_pos h]

theorem natChars_ge10 (n : Nat) (h : 10 ≤ n) :
    natChars n = natChars (n / 10) ++ [digitChar (n % 10)] := by
  unfold natChars
  show (if n < 10 then _ else _) = _
  rw [if_neg (by omega)]
  rw [natCharsAux_fuel n (n / 10 + 1) (n / 10) _ (by omega) (by omega)]
  exact natCharsAux_acc (n / 10 + 1) (n / 10) _ (by omega)

theorem natChars_isDig (n : Nat) : ∀ c ∈ natChars n, isDig c = true := by
  induction n using Nat.strong_induction_on with
  | _ n ih =>
    by_cases h10 : n < 10
    · rw [natChars_lt10 n h10]
      intro c hc
      rw [List.mem_singleton] at hc
      subst hc
      exact digitChar_isDig n
    · rw [natChars_ge10 n (by omega)]
      intro c hc
      rcases List.mem_append.mp hc with h | h
      · exact ih (n / 10) (by omega) c h
      · rw [List.mem_singleton] at h
        subst h
        exact digitChar_isDig _

theorem parseNat_append_one (xs : List Char) (c : Char) :
    parseNatDigits (xs ++ [c]) = 10 * parseNatDigits xs + (c.toNat - 48) := by
  unfold parseNatDigits
  rw [List.foldl_append]
  show List.foldl (fun a c => a * 10 + (c.toNat - 48)) 0 xs * 10 + (c.toNat - 48) = _
  omega

theorem parseNat_natChars (n : Nat) : parseNatDigits (natChars n) = n := by
  induction n using Nat.strong_induction_on with
  | _ n ih =>
    by_cases h10 : n < 10
    · rw [natChars_lt10 n h10]
      show 0 * 10 + ((digitChar n).toNat - 48) = n
      rw [digitChar_toNat n h10]
      omega
    · rw [natChars_ge10 n (by omega), parseNat_append_one, ih (n / 10) (by omega),
        digitChar_toNat (n % 10) (by omega)]
      omega

theorem parseNat_replicate_zero (k : Nat) (cs : List Char) :
    parseNatDigits (List.replicate k '0' ++ cs) = parseNatDigits cs := by
  induction k with
  | zero => rfl
  | succ k ih =>
    rw [List.replicate_succ, List.cons_append]
    show parseNatDigits (List.replicate k '0' ++ cs) = _
    exact ih

theorem parseNat_zeroPad (w : Nat) (cs : List Char) :
    parseNatDigits (zeroPad w cs) = parseNatDigits cs :=
  parseNat_replicate_zero _ _

theorem zeroPad_isDig (w : Nat) (cs : List Char) (h : ∀ c ∈ cs, isDig c = true) :
    ∀ c ∈ zeroPad w cs, isDig c = true := by
  intro c hc
  rcases List.mem_append.mp hc with h0 | h0
  · rw [List.eq_of_mem_replicate h0]
    decide
  · exact h c h0

theorem natChars_len_pos (n : Nat) : 1 ≤ (natChars n).length := by
  by_cases h10 : n < 10
  · rw [natChars_lt10 n h10]
    simp
  · rw [natChars_ge10 n (by omega)]
    simp

theorem natChars_len_le (k : Nat) : ∀ n : Nat, 1 ≤ k → n < 10 ^ k →
    (natChars n).length ≤ k := by
  induction k with
  | zero => omega
  | succ k ih =>
    intro n _ hn
    by_cases h10 : n < 10
    · rw [natChars_lt10 n h10]
      simp
    · rw [natChars_ge10 n (by omega)]
      have hk : 1 ≤ k := by
        by_contra hk0
        have : k = 0 := by omega
        subst this
        simp at hn
        omega
      have : n / 10 < 10 ^ k := by
        rw [Nat.div_lt_iff_lt_mul (by omega)]
        calc n < 10 ^ (k + 1) := hn
        _ = 10 ^ k * 10 := by rw [Nat.pow_succ]
      have := ih (n / 10) hk this
      simp only [List.length_append, List.length_singleton]
      omega

theorem zeroPad_len (w : Nat) (cs : List Char) (h : cs.length ≤ w) :
    (zeroPad w cs).length = w := by
  unfold zeroPad
  rw [List.length_append, List.length_replicate]
  omega

theorem zeroPad_ne_nil (w : Nat) (cs : List Char) (h : 1 ≤ w) :
    (zeroPad w cs).length ≠ 0 := by
  unfold zeroPad
  rw [List.length_append, List.length_replicate]
  omega

/-! Runs of character classes. -/

theorem takeWhile_append_all (p : Char → Bool) (xs ys : List Char)
    (h : ∀ c ∈ xs, p c = true) :
    (xs ++ ys).takeWhile p = xs ++ ys.takeWhile p := by
  induction xs with
  | nil => rfl
  | cons a t ih =>
    rw [List.cons_append, List.takeWhile_cons, if_pos (h a (List.mem_cons_self a t)),
      ih fun c hc => h c (List.mem_cons_of_mem a hc), List.cons_append]

theorem takeWhile_head_false (p : Char → Bool) (ys : List Char)
    (h : ∀ c, ys.head? = some c → p c = false) : ys.takeWhile p = [] := by
  cases ys with
  | nil => rfl
  | cons a t =>
    rw [List.takeWhile_cons, if_neg]
    rw [h a rfl]
    decide

theorem digitRun_append (xs ys : List Char) (hx : ∀ c ∈ xs, isDig c = true)
    (hy : ∀ c, ys.head? = some c → isDig c = false) :
    digitRun (xs ++ ys) = xs.length := by
  unfold digitRun
  rw [takeWhile_append_all isDig xs ys hx, takeWhile_head_false isDig ys hy,
    List.append_nil]

theorem wsRun_head_false (s : List Char) (h : ∀ c, s.head? = some c → isWs c = false) :
    wsRun s = 0 := by
  unfold wsRun
  rw [takeWhile_head_false isWs s h]
  rfl

/-! Heads of the stage alternative lists. -/

theorem head?_flatMap {α β : Type} (l : List α) (f : α → List β) (a : α) (b : β)
    (ha : l.head? = some a) (hb : (f a).head? = some b) :
    (l.flatMap f).head? = some b := by
  cases l with
  | nil => cases ha
  | cons x t =>
    injection ha with ha
    subst ha
    rw [List.flatMap_cons, List.head?_append, hb]
    rfl

theorem wsStarAlts_head (s : List Char) :
    (wsStarAlts s).head? = some (s.drop (wsRun s)) := by
  unfold wsStarAlts
  rw [List.range_succ_eq_map]
  rw [List.map_cons, List.head?_cons, Nat.sub_zero]

theorem tailAlts_head_ws (s : List Char) (h : 1 ≤ wsRun s) :
    (tailAlts s).head? = some (s.drop (wsRun s)) := by
  unfold tailAlts
  obtain ⟨k, hk⟩ : ∃ k, wsRun s = k + 1 := ⟨wsRun s - 1, by omega⟩
  rw [hk, List.range_succ_eq_map, List.map_cons, List.cons_append,
    List.head?_cons, Nat.sub_zero]

theorem signAlts_no_dash (c : Char) (t : List Char) (h : c ≠ '-') :
    signAlts (c :: t) = [([], c :: t)] := by
  unfold signAlts
  split
  · next heq =>
    injection heq with h1 _
    exact absurd h1 h
  · rfl

theorem dashNumAlts_dash (t : List Char) :
    dashNumAlts ('-' :: t) =
      ((List.range (min (digitRun t) 2)).map fun i =>
        (some (t.take (min (digitRun t) 2 - i)), t.drop (min (digitRun t) 2 - i))) ++
        [(none, '-' :: t)] := rfl

theorem dashNumAlts_dash_head (m2 rest : List Char) (h2 : m2.length = 2)
    (hdig : ∀ c ∈ m2, isDig c = true)
    (hrest : ∀ c, rest.head? = some c → isDig c = false) :
    (dashNumAlts ('-' :: (m2 ++ rest))).head? = some (some m2, rest) := by
  rw [dashNumAlts_dash, digitRun_append m2 rest hdig hrest, h2, Nat.min_self]
  rw [show List.range 2 = 0 :: [1] from rfl, List.map_cons, List.cons_append,
    List.head?_cons, Nat.sub_zero, List.take_left' h2, List.drop_left' h2]

theorem yearDigitAlts_head (y4 rest : List Char) (h4 : y4.length = 4)
    (hdig : ∀ c ∈ y4, isDig c = true)
    (hrest : ∀ c, rest.head? = some c → isDig c = false) :
    (yearDigitAlts (y4 ++ rest)).head? = some (y4, rest) := by
  unfold yearDigitAlts
  rw [digitRun_append y4 rest hdig hrest, h4, Nat.min_self]
  rw [show List.range 4 = 0 :: [1, 2, 3] from rfl, List.map_cons,
    List.head?_cons, Nat.sub_zero, List.take_left' h4, List.drop_left' h4]

theorem eraAlts_bce (s : List Char) :
    (eraAlts ('B' :: 'C' :: 'E' :: s)).head? = some (some ['B', 'C', 'E'], s) := by
  unfold eraAlts eraTry
  rw [if_pos (by rfl)]
  rfl

theorem eraAlts_ce (s : List Char) :
    (eraAlts ('C' :: 'E' :: s)).head? = some (some ['C', 'E'], s) := by
  unfold eraAlts eraTry
  rw [if_neg ?h1, if_neg ?h2, if_pos (by rfl)]
  · rfl
  case h1 =>
    intro heq
    have heq' : Char.toLower 'C' :: Char.toLower 'E' :: (s.take 1).map Char.toLower =
        ['b', 'c', 'e'] := heq
    injection heq' with h0 _
    exact absurd h0 (by decide)
  case h2 =>
    intro heq
    have heq' : ([Char.toLower 'C', Char.toLower 'E'] : List Char) = ['b', 'c'] := heq
    injection heq' with h0 _
    exact absurd h0 (by decide)

/-! Heads of the matcher pipeline on strings of the file format's shape:
an era prefix, a 4-digit year, and one of the three precision tails. -/

theorem afterYear_head_year_only (total : Nat) (era : Option (List Char))
    (yr : List Char) :
    (afterYear total era yr [' ', ' ', ' ', ' ', ' ', ' ']).head? =
      some ⟨era, yr, none, none, total⟩ := rfl

theorem afterYear_head_month (total : Nat) (era : Option (List Char))
    (yr m2 : List Char) (h2 : m2.length = 2) (hdig : ∀ c ∈ m2, isDig c = true) :
    (afterYear total era yr ('-' :: (m2 ++ [' ', ' ', ' ']))).head? =
      some ⟨era, yr, some m2, none, total⟩ := by
  unfold afterYear
  apply head?_flatMap _ _ (some m2, [' ', ' ', ' ']) _
    (dashNumAlts_dash_head m2 [' ', ' ', ' '] h2 hdig ?_) ?_
  · intro c hc
    injection hc with hc
    subst hc
    decide
  · rfl

theorem afterYear_head_month_day (total : Nat) (era : Option (List Char))
    (yr m2 d2 : List Char) (hm2 : m2.length = 2)
    (hmdig : ∀ c ∈ m2, isDig c = true) (hd2 : d2.length = 2)
    (hddig : ∀ c ∈ d2, isDig c = true) :
    (afterYear total era yr ('-' :: (m2 ++ '-' :: d2))).head? =
      some ⟨era, yr, some m2, some d2, total⟩ := by
  unfold afterYear
  apply head?_flatMap _ _ (some m2, '-' :: d2) _
    (dashNumAlts_dash_head m2 ('-' :: d2) hm2 hmdig ?_) ?_
  · intro c hc
    injection hc with hc
    subst hc
    decide
  · apply head?_flatMap _ _ (some d2, ([] : List Char)) _ ?_ ?_
    · have h := dashNumAlts_dash_head d2 [] hd2 hddig (fun c hc => by cases hc)
      rwa [List.append_nil] at h
    · rfl

theorem afterEra_head (total : Nat) (era : Option (List Char))
    (y4 rest : List Char) (h4 : y4.length = 4)
    (hdig : ∀ c ∈ y4, isDig c = true)
    (hrest : ∀ c, rest.head? = some c → isDig c = false)
    (X : RawCaps) (hAY : (afterYear total era y4 rest).head? = some X) :
    (afterEra total era (' ' :: (y4 ++ rest))).head? = some X := by
  obtain ⟨a, t, hy4⟩ : ∃ a t, y4 = a :: t := by
    cases y4 with
    | nil => simp at h4
    | cons a t => exact ⟨a, t, rfl⟩
  have hahd : isDig a = true := hdig a (by rw [hy4]; exact List.mem_cons_self a t)
  have hws : wsRun (' ' :: (y4 ++ rest)) = 1 := by
    unfold wsRun
    rw [List.takeWhile_cons, if_pos (by decide), takeWhile_head_false]
    · rfl
    · intro c hc
      rw [hy4] at hc
      injection hc with hc
      subst hc
      exact isDig_not_ws a hahd
  unfold afterEra
  apply head?_flatMap _ _ (y4 ++ rest) X ?_ ?_
  · rw [wsStarAlts_head, hws]
    rfl
  · apply head?_flatMap _ _ (([] : List Char), y4 ++ rest) X ?_ ?_
    · rw [hy4, List.cons_append, signAlts_no_dash a (t ++ rest) (isDig_ne_dash a hahd),
        ← List.cons_append, ← hy4]
      rfl
    · apply head?_flatMap _ _ (y4, rest) X
        (yearDigitAlts_head y4 rest h4 hdig hrest) ?_
      exact hAY

theorem dateMatches_bce (w : List Char) (X : RawCaps)
    (hw : (afterEra ('B' :: 'C' :: 'E' :: ' ' :: w).length (some ['B', 'C', 'E'])
      (' ' :: w)).head? = some X) :
    (dateMatches ('B' :: 'C' :: 'E' :: ' ' :: w)).head? = some X := by
  unfold dateMatches
  apply head?_flatMap _ _ ('B' :: 'C' :: 'E' :: ' ' :: w) X ?_ ?_
  · rw [wsStarAlts_head, wsRun_head_false _ ?_]
    · rfl
    · intro c hc
      injection hc with hc
      subst hc
      decide
  · exact head?_flatMap _ _ (some ['B', 'C', 'E'], ' ' :: w) X (eraAlts_bce (' ' :: w)) hw

theorem dateMatches_ce (w : List Char) (X : RawCaps)
    (hw : (afterEra (' ' :: 'C' :: 'E' :: ' ' :: w).length (some ['C', 'E'])
      (' ' :: w)).head? = some X) :
    (dateMatches (' ' :: 'C' :: 'E' :: ' ' :: w)).head? = some X := by
  unfold dateMatches
  have hws : wsRun (' ' :: 'C' :: 'E' :: ' ' :: w) = 1 := by
    unfold wsRun
    rw [List.takeWhile_cons, if_pos (by decide), takeWhile_head_false]
    · rfl
    · intro c hc
      injection hc with hc
      subst hc
      decide
  apply head?_flatMap _ _ ('C' :: 'E' :: ' ' :: w) X ?_ ?_
  · rw [wsStarAlts_head, hws]
    rfl
  · exact head?_flatMap _ _ (some ['C', 'E'], ' ' :: w) X (eraAlts_ce (' ' :: w)) hw

/-- Date.parse rewritten through the head match. -/
theorem parse_eq_of_head (s : String) (c : RawCaps)
    (hm : (dateMatches s.toList).head? = some c) :
    Date.parse s =
      (Date.new (if eraIsB c.era then -(parseYearChars c.year) else parseYearChars c.year)
        ((c.month.map parseNatDigits).getD 0)
        ((c.day.map parseNatDigits).getD 0)).map fun dd => (dd, c.stop) := by
  unfold Date.parse
  rw [hm]

theorem except_map_ok {α β : Type} (f : α → β) (a : α) :
    (Except.ok a : Except String α).map f = .ok (f a) := rfl

/-- The common back half of the round trip: parsing the formatted string,
given the after-year head for the precision tail `rest`. -/
theorem parse_format_assemble (d : Date) (rest : List Char)
    (mo dy : Option (List Char))
    (hy1 : -9999 ≤ d.year) (hy2 : d.year ≤ 9999) (hm : d.month ≤ 12)
    (hdl : d.month ≠ 0 → d.day ≤ monthLength d.month)
    (hmo : (mo.map parseNatDigits).getD 0 = d.month)
    (hdy : (dy.map parseNatDigits).getD 0 = d.day)
    (hrest : ∀ c, rest.head? = some c → isDig c = false)
    (hrlen : rest.length = 6)
    (hay : ∀ (total : Nat) (era : Option (List Char)),
      (afterYear total era (zeroPad 4 (natChars d.year.natAbs)) rest).head? =
        some ⟨era, zeroPad 4 (natChars d.year.natAbs), mo, dy, total⟩) :
    Date.parse ⟨fmtPre d true ++ (zeroPad 4 (natChars d.year.natAbs) ++ rest)⟩ =
      .ok (d, 14) := by
  have hn : d.year.natAbs ≤ 9999 := by omega
  have hy4len : (zeroPad 4 (natChars d.year.natAbs)).length = 4 :=
    zeroPad_len 4 _ (natChars_len_le 4 _ (by omega)
      (by have h4 : (10 : Nat) ^ 4 = 10000 := by norm_num
          omega))
  have hy4dig : ∀ c ∈ zeroPad 4 (natChars d.year.natAbs), isDig c = true :=
    zeroPad_isDig 4 _ (natChars_isDig _)
  have hy4head : ∀ c, (zeroPad 4 (natChars d.year.natAbs)).head? = some c →
      isDig c = true := by
    intro c hc
    cases hcy : zeroPad 4 (natChars d.year.natAbs) with
    | nil => rw [hcy] at hc; cases hc
    | cons a t =>
      rw [hcy] at hc
      injection hc with hc
      refine hy4dig c ?_
      rw [hcy, ← hc]
      exact List.mem_cons_self a t
  have hyv : parseYearChars (zeroPad 4 (natChars d.year.natAbs)) =
      (d.year.natAbs : Int) := by
    have hnd : ¬ ((zeroPad 4 (natChars d.year.natAbs)).head? = some '-') := fun hc =>
      (isDig_ne_dash '-' (hy4head '-' hc)) rfl
    unfold parseYearChars
    rw [if_neg hnd, parseNat_zeroPad, parseNat_natChars]
  by_cases hneg : d.year < 0
  · have hpre : fmtPre d true = ['B', 'C', 'E', ' '] := by
      unfold fmtPre
      rw [if_pos rfl, if_pos hneg]
    rw [hpre]
    rw [parse_eq_of_head _ ⟨some ['B', 'C', 'E'], zeroPad 4 (natChars d.year.natAbs), mo, dy,
        (['B', 'C', 'E', ' '] ++ (zeroPad 4 (natChars d.year.natAbs) ++ rest)).length⟩ ?hm1]
    case hm1 =>
      apply dateMatches_bce
      exact afterEra_head _ _ _ rest hy4len hy4dig hrest _ (hay _ _)
    rw [if_pos (show eraIsB (some ['B', 'C', 'E']) = true from rfl), hyv, hmo, hdy]
    have hyy : -(d.year.natAbs : Int) = d.year := by omega
    rw [hyy, Date.new_ok d.year d.month d.day hm hdl, except_map_ok]
    have hstop : (['B', 'C', 'E', ' '] ++
        (zeroPad 4 (natChars d.year.natAbs) ++ rest)).length = 14 := by
      rw [List.length_append, List.length_append, hy4len, hrlen]
      rfl
    rw [hstop]
  · have hpre : fmtPre d true = [' ', 'C', 'E', ' '] := by
      unfold fmtPre
      rw [if_pos rfl, if_neg hneg]
    rw [hpre]
    rw [parse_eq_of_head _ ⟨some ['C', 'E'], zeroPad 4 (natChars d.year.natAbs), mo, dy,
        ([' ', 'C', 'E', ' '] ++ (zeroPad 4 (natChars d.year.natAbs) ++ rest)).length⟩ ?hm2]
    case hm2 =>
      apply dateMatches_ce
      exact afterEra_head _ _ _ rest hy4len hy4dig hrest _ (hay _ _)
    rw [if_neg (show ¬ (eraIsB (some ['C', 'E']) = true) by decide), hyv, hmo, hdy]
    have hyy : (d.year.natAbs : Int) = d.year := by omega
    rw [hyy, Date.new_ok d.year d.month d.day hm hdl, except_map_ok]
    have hstop : ([' ', 'C', 'E', ' '] ++
        (zeroPad 4 (natChars d.year.natAbs) ++ rest)).length = 14 := by
      rw [List.length_append, List.length_append, hy4len, hrlen]
      rfl
    rw [hstop]

theorem monthLength_le (m : Nat) : monthLength m ≤ 31 := by
  by_cases h : m ≤ 12
  · interval_cases m <;> decide
  · unfold monthLength
    rw [List.getD_eq_default]
    · omega
    · show monthLengths.length ≤ m - 1
      have : monthLengths.length = 12 := rfl
      omega

/-- Claim C1: for every date with year in [-9999, 9999], month at most 12 and
day consistent with the month (a known day needs a known month and fits the
fixed month length; for month 0 the day must be 0, since formatting drops
the day of a month-less date), parsing the era-displaying format of the date
succeeds and returns the date itself, consuming all 14 characters. -/
theorem claim_C1 (d : Date) (hy1 : -9999 ≤ d.year) (hy2 : d.year ≤ 9999)
    (hm : d.month ≤ 12) (hmd : d.day ≠ 0 → d.month ≠ 0)
    (hdl : d.month ≠ 0 → d.day ≤ monthLength d.month) :
    Date.parse (d.format true) = .ok (d, 14) := by
  have hple : ∀ n : Nat, n ≤ 31 → (zeroPad 2 (natChars n)).length = 2 := fun n hn =>
    zeroPad_len 2 _ (natChars_len_le 2 n (by omega)
      (by have h2 : (10 : Nat) ^ 2 = 100 := by norm_num
          omega))
  by_cases hm0 : d.month = 0
  · have hd0 : d.day = 0 := by
      by_contra hd
      exact (hmd hd) hm0
    have hfmt : d.format true =
        ⟨fmtPre d true ++ (zeroPad 4 (natChars d.year.natAbs) ++
          [' ', ' ', ' ', ' ', ' ', ' '])⟩ := by
      unfold Date.format
      rw [if_pos hm0, List.append_assoc]
    rw [hfmt]
    refine parse_format_assemble d _ none none hy1 hy2 hm hdl hm0.symm hd0.symm ?_ rfl ?_
    · intro c hc
      injection hc with hc
      subst hc
      decide
    · intro total era
      exact afterYear_head_year_only total era _
  · by_cases hd0 : d.day = 0
    · have hfmt : d.format true =
          ⟨fmtPre d true ++ (zeroPad 4 (natChars d.year.natAbs) ++
            ('-' :: (zeroPad 2 (natChars d.month) ++ [' ', ' ', ' '])))⟩ := by
        unfold Date.format
        rw [if_neg hm0, if_pos hd0, List.append_assoc, List.cons_append,
          List.append_assoc]
      rw [hfmt]
      refine parse_format_assemble d _ (some (zeroPad 2 (natChars d.month))) none
        hy1 hy2 hm hdl ?_ hd0.symm ?_ ?_ ?_
      · show parseNatDigits (zeroPad 2 (natChars d.month)) = d.month
        rw [parseNat_zeroPad, parseNat_natChars]
      · intro c hc
        injection hc with hc
        subst hc
        decide
      · show ('-' :: (zeroPad 2 (natChars d.month) ++ [' ', ' ', ' '])).length = 6
        rw [List.length_cons, List.length_append, hple d.month (by omega)]
        rfl
      · intro total era
        exact afterYear_head_month total era _ _ (hple d.month (by omega))
          (zeroPad_isDig 2 _ (natChars_isDig _))
    · have hfmt : d.format true =
          ⟨fmtPre d true ++ (zeroPad 4 (natChars d.year.natAbs) ++
            ('-' :: (zeroPad 2 (natChars d.month) ++
              ('-' :: zeroPad 2 (natChars d.day)))))⟩ := by
        unfold Date.format
        rw [if_neg hm0, if_neg hd0, List.append_assoc, List.cons_append,
          List.append_assoc]
      rw [hfmt]
      have hdle : d.day ≤ 31 := le_trans (hdl hm0) (monthLength_le d.month)
      refine parse_format_assemble d _ (some (zeroPad 2 (natChars d.month)))
        (some (zeroPad 2 (natChars d.day))) hy1 hy2 hm hdl ?_ ?_ ?_ ?_ ?_
      · show parseNatDigits (zeroPad 2 (natChars d.month)) = d.month
        rw [parseNat_zeroPad, parseNat_natChars]
      · show parseNatDigits (zeroPad 2 (natChars d.day)) = d.day
        rw [parseNat_zeroPad, parseNat_natChars]
      · intro c hc
        injection hc with hc
        subst hc
        decide
      · show ('-' :: (zeroPad 2 (natChars d.month) ++
            ('-' :: zeroPad 2 (natChars d.day)))).length = 6
        rw [List.length_cons, List.length_append, hple d.month (by omega),
          List.length_cons, hple d.day hdle]
      · intro total era
        exact afterYear_head_month_day total era _ _ _
          (hple d.month (by omega)) (zeroPad_isDig 2 _ (natChars_isDig _))
          (hple d.day hdle) (zeroPad_isDig 2 _ (natChars_isDig _))

/-- Witness for C1 at the date BCE 44-12-25. -/
theorem claim_C1_witness :
    Date.parse (Date.format ⟨-44, 12, 25⟩ true) = .ok (⟨-44, 12, 25⟩, 14) :=
  claim_C1 ⟨-44, 12, 25⟩ (by decide) (by decide) (by decide) (by decide) (by decide)

/-! The era/sign interaction in parsing. -/

/-- Claim C4 (amended): an era token beginning with B/b NEGATES the signed
year value parsed from the year capture. When the year digits carry an
explicit leading '-', the two markers cancel: a successful parse returns the
non-negative digit value as the year — not a negative year as claimed. -/
theorem claim_C4 (s : String) (c : RawCaps)
    (hmhead : (dateMatches s.toList).head? = some c)
    (hera : eraIsB c.era = true) (hsign : c.year.head? = some '-')
    (d : Date) (n : Nat) (hok : Date.parse s = .ok (d, n)) :
    d.year = (parseNatDigits (c.year.drop 1) : Int) ∧ 0 ≤ d.year := by
  rw [parse_eq_of_head s c hmhead, if_pos hera] at hok
  unfold parseYearChars at hok
  rw [if_pos hsign, neg_neg] at hok
  rcases hnew : Date.new (parseNatDigits (c.year.drop 1) : Int)
      ((c.month.map parseNatDigits).getD 0) ((c.day.map parseNatDigits).getD 0)
      with e1 | dd
  · rw [hnew] at hok
    cases hok
  · rw [hnew, except_map_ok] at hok
    injection hok with hok
    injection hok with hok1 hok2
    rw [Date.new_ok_iff] at hnew
    obtain ⟨_, _, hdd⟩ := hnew
    rw [← hok1, hdd]
    exact ⟨rfl, Int.natCast_nonneg _⟩

/-- Counterexample to C4 as stated: "BCE -44" has a B-era token and an
explicit '-' on the year digits, parses successfully, and yields the
POSITIVE year 44 — the era negation cancels the explicit sign. -/
theorem claim_C4_cex :
    Date.parse "BCE -44" = .ok (⟨44, 0, 0⟩, 7) ∧ ¬ ((44 : Int) < 0) :=
  ⟨rfl, by decide⟩

/-- Witness for C4 at the input "BCE -44" and its match captures. -/
theorem claim_C4_witness :
    Date.year ⟨44, 0, 0⟩ = (parseNatDigits (['-', '4', '4'].drop 1) : Int) ∧
      0 ≤ Date.year ⟨44, 0, 0⟩ :=
  claim_C4 "BCE -44" ⟨some ['B', 'C', 'E'], ['-', '4', '4'], none, none, 7⟩
    rfl rfl rfl ⟨44, 0, 0⟩ 7 rfl

/-! File loading: WorldLine::from_file on the file's contents. -/

/-- Split at newline characters; n newlines give n + 1 segments. -/
def splitNl : List Char → List (List Char)
  | [] => [[]]
  | c :: rest =>
    if c = '\n' then [] :: splitNl rest
    else
      match splitNl rest with
      | [] => [[c]]
      | line :: more => (c :: line) :: more

/-- Drop one trailing carriage return. -/
def stripCR (cs : List Char) : List Char :=
  if cs.getLast? = some '\r' then cs.dropLast else cs

/-- Strip the trailing '\r' of every segment that was followed by a newline
(every segment but the last). -/
def stripCRInit : List (List Char) → List (List Char)
  | [] => []
  | [s] => [s]
  | s :: rest => stripCR s :: stripCRInit rest

/-- str::lines: split at '\n', strip a '\r' before each split point, and
drop the final empty segment left by a trailing newline. -/
def linesOf (contents : String) : List String :=
  let parts := stripCRInit (splitNl contents.toList)
  (if parts.getLast? = some [] then parts.dropLast else parts).map fun cs => ⟨cs⟩

/-- The collect step of from_file: parse each line left to right, the first
failure aborting with its error (Result collect semantics). -/
def parseEvents : List String → Except String (List Event)
  | [] => .ok []
  | l :: ls => (Event.parse l).bind fun e => (parseEvents ls).map fun es => e :: es

/-- WorldLine::from_file applied to the file's contents (the fs read itself
is outside the model): parse every line as an event; the first failure
aborts the load with that error. -/
def WorldLine.fromContents (contents : String) : Except String WorldLine :=
  (parseEvents (linesOf contents)).map fun es => ⟨es⟩

theorem parseEvents_ok_of_forall2 (ls : List String) (es : List Event)
    (h : List.Forall₂ (fun l e => Event.parse l = .ok e) ls es) :
    parseEvents ls = .ok es := by
  induction h with
  | nil => rfl
  | cons hle _ ih =>
    show (Event.parse _).bind _ = _
    rw [hle, ih]
    rfl

/-- Claim C5 (amended): from_file succeeds on contents whose every line
parses as an event, returning the events in file order (a single trailing
newline is fine: lines() drops the final empty segment). Empty lines are NOT
skipped: an interior empty line is itself parsed, fails, and aborts the whole
load — see the counterexample. -/
theorem claim_C5 (contents : String) (es : List Event)
    (h : List.Forall₂ (fun l e => Event.parse l = .ok e) (linesOf contents) es) :
    WorldLine.fromContents contents = .ok ⟨es⟩ := by
  unfold WorldLine.fromContents
  rw [parseEvents_ok_of_forall2 _ _ h]
  rfl

/-- Counterexample to C5 as stated: two valid event lines separated by an
empty line fail to load — the empty line is parsed as an event and its date
parse fails, so from_file returns an error instead of skipping it. -/
theorem claim_C5_cex :
    (Event.parse "BCE 44 a").isOk = true ∧
    (Event.parse " CE 33 b").isOk = true ∧
    WorldLine.fromContents "BCE 44 a\n\n CE 33 b" =
      .error "Invalid date format: " :=
  ⟨rfl, rfl, rfl⟩

/-- Witness for C5: a two-line file with a trailing newline loads into the
two events, in file order. -/
theorem claim_C5_witness :
    WorldLine.fromContents "BCE 44 et tu\n CE 2023-12-25 Christmas\n" =
      .ok ⟨[⟨⟨-44, 0, 0⟩, "et tu"⟩, ⟨⟨2023, 12, 25⟩, "Christmas"⟩]⟩ := by
  refine claim_C5 _ _ ?_
  have h : linesOf "BCE 44 et tu\n CE 2023-12-25 Christmas\n" =
      ["BCE 44 et tu", " CE 2023-12-25 Christmas"] := rfl
  rw [h]
  exact List.Forall₂.cons rfl (List.Forall₂.cons rfl List.Forall₂.nil)

end WL
